import Mathlib

/-!
Verification of the ProjectCollabSystem collaborative code editor
(src/src/App.tsx) against its natural-language specification.

The application is a single React component.  Its local state consists of
the list of open files, the id of the active file, the video-enabled flag
and the right-panel visibility.  Every user action is embedded below as a
pure function on that state, translated directly from the source.
-/

namespace CollabSystem

/-- `type Panel = 'preview' | 'terminal' | 'none'` (App.tsx line 13). -/
inductive Panel where
  | preview
  | terminal
  | none
  deriving DecidableEq, Repr

/-- `interface File` (App.tsx lines 15-20). -/
structure File where
  id : String
  name : String
  language : String
  content : String
  deriving DecidableEq, Repr

/-- The component state relevant to the claims: `files`, `activeFileId`,
`videoEnabled`, `rightPanel` (App.tsx lines 32-40). -/
structure AppState where
  files : List File
  activeFileId : String
  videoEnabled : Bool
  rightPanel : Panel
  deriving DecidableEq, Repr

/-- The initial component state (App.tsx lines 32-40): three default files,
active id `"1"`, video off, no right panel. -/
def initState : AppState :=
  { files :=
      [ { id := "1", name := "index.html", language := "html", content := "" }
      , { id := "2", name := "styles.css", language := "css", content := "" }
      , { id := "3", name := "script.js", language := "javascript", content := "" } ]
  , activeFileId := "1"
  , videoEnabled := false
  , rightPanel := Panel.none }

/-- `setRightPanel(prev => prev === panel ? 'none' : panel)`
(App.tsx line 213): the pure update applied to the previous panel value. -/
def nextPanel (panel prev : Panel) : Panel :=
  if prev = panel then Panel.none else panel

/-- `togglePanel` (App.tsx lines 212-214). -/
def togglePanel (panel : Panel) (s : AppState) : AppState :=
  { s with rightPanel := nextPanel panel s.rightPanel }

/-- `toggleVideo` (App.tsx lines 208-210): `setVideoEnabled(!videoEnabled)`. -/
def toggleVideo (s : AppState) : AppState :=
  { s with videoEnabled := !s.videoEnabled }

/-- JavaScript `split('.')` on a character list: splits at every dot and
always yields a nonempty list of segments (`"".split('.')` is `[""]`, a
trailing dot produces a trailing empty segment). -/
def splitOnDot : List Char → List (List Char)
  | [] => [[]]
  | c :: rest =>
    if c = '.' then [] :: splitOnDot rest
    else
      match splitOnDot rest with
      | [] => [[c]]
      | seg :: segs => (c :: seg) :: segs

/-- `fileName.split('.').pop()?.toLowerCase() || ''` (App.tsx line 220).
`split('.')` always yields a nonempty array, so `pop()` returns its last
segment; on a name with no dot that is the whole name.  Lowercasing is
per character (ASCII, the range the language table distinguishes). -/
def extensionOf (fileName : String) : String :=
  String.mk (((splitOnDot fileName.data).getLastD []).map Char.toLower)

/-- The `switch (extension)` table (App.tsx lines 221-231), defaulting to
`'plaintext'`. -/
def languageOf (extension : String) : String :=
  match extension with
  | "html" => "html"
  | "css" => "css"
  | "js" => "javascript"
  | "ts" => "typescript"
  | "json" => "json"
  | "md" => "markdown"
  | _ => "plaintext"

/-- `addNewFile` (App.tsx lines 216-242).  `promptResult` is the value
returned by `prompt` (`none` models a cancelled prompt); `if (!fileName)
return` aborts on `null` and on the empty string.  `newId` models
`Date.now().toString()`. -/
def addNewFile (promptResult : Option String) (newId : String) (s : AppState) : AppState :=
  match promptResult with
  | Option.none => s
  | Option.some fileName =>
    if fileName = "" then s
    else
      let newFile : File :=
        { id := newId
        , name := fileName
        , language := languageOf (extensionOf fileName)
        , content := "" }
      { s with files := s.files ++ [newFile], activeFileId := newFile.id }

/-- A local download produced by `saveFile`: blob content, download name
and blob MIME type (App.tsx lines 248-252). -/
structure Download where
  content : String
  fileName : String
  mime : String
  deriving DecidableEq, Repr

/-- `saveFile` (App.tsx lines 244-255): look up the active file; if absent
do nothing, otherwise trigger a download of its content under its name.
The state is returned unchanged alongside the optional download. -/
def saveFile (s : AppState) : AppState × Option Download :=
  match s.files.find? (fun f => f.id = s.activeFileId) with
  | Option.none => (s, Option.none)
  | Option.some file =>
    (s, Option.some { content := file.content, fileName := file.name, mime := "text/plain" })

/-- `editor.onDidChangeModelContent` handler (App.tsx lines 150-155):
`setFiles(prev => prev.map(f => f.id === activeFileId ? { ...f, content } : f))`.
The listener is registered once, inside `handleEditorDidMount`, which the
editor's `onMount` calls a single time; the callback therefore closes over
the `activeFileId` binding of the mount-time render and keeps comparing
against that captured value (`capturedActiveFileId`) for the whole
session, not against the current `s.activeFileId`.  In this program the
editor mounts once at startup, when `activeFileId` is `"1"`. -/
def onEditorContentChange (capturedActiveFileId content : String) (s : AppState) : AppState :=
  { s with files :=
      s.files.map (fun f =>
        if f.id = capturedActiveFileId then { f with content := content } else f) }

/-- A file-explorer button click (App.tsx lines 320-331): the buttons are
rendered one per element of `files`, each calling `setActiveFileId(file.id)`;
the action space is therefore indexed by positions in `files`. -/
def selectFile (i : Nat) (s : AppState) : AppState :=
  match s.files.get? i with
  | Option.some f => { s with activeFileId := f.id }
  | Option.none => s

/-- The media-device failure handler (App.tsx line 196):
`.catch(err => console.error('Error accessing media devices:', err))`.
It only writes a console line; the returned state is the input state and
the second component is the log output. -/
def onMediaError (err : String) (s : AppState) : AppState × List String :=
  (s, ["Error accessing media devices: " ++ err])

/-- The user actions (and the caught media failure) that drive the state. -/
inductive Action where
  | createFile (promptResult : Option String) (newId : String)
  | save
  | editorChange (content : String)
  | panelToggle (panel : Panel)
  | videoToggle
  | fileSelect (i : Nat)
  | mediaError (err : String)

/-- One state transition per action.  The editor-change transition uses
the active id captured by the once-registered listener at editor mount,
which in this program is the startup value `initState.activeFileId`. -/
def step (a : Action) (s : AppState) : AppState :=
  match a with
  | Action.createFile r newId => addNewFile r newId s
  | Action.save => (saveFile s).fst
  | Action.editorChange c => onEditorContentChange initState.activeFileId c s
  | Action.panelToggle p => togglePanel p s
  | Action.videoToggle => toggleVideo s
  | Action.fileSelect i => selectFile i s
  | Action.mediaError e => (onMediaError e s).fst

/-- The state after a sequence of actions from the initial state. -/
def run (acts : List Action) : AppState :=
  acts.foldl (fun s a => step a s) initState

/-! ## Helper lemmas -/

/-- `saveFile` never changes the state. -/
lemma saveFile_fst (s : AppState) : (saveFile s).fst = s := by
  unfold saveFile
  cases s.files.find? (fun f => f.id = s.activeFileId) <;> rfl

/-- Equation lemma: splitting a list that starts with a dot. -/
lemma splitOnDot_dot (l : List Char) : splitOnDot ('.' :: l) = [] :: splitOnDot l := by
  conv_lhs => rw [splitOnDot.eq_def]
  simp

/-- Equation lemma: splitting a list that starts with a non-dot character. -/
lemma splitOnDot_cons_ne {c : Char} (hc : c ≠ '.') (l : List Char) :
    splitOnDot (c :: l) =
      match splitOnDot l with
      | [] => [[c]]
      | seg :: segs => (c :: seg) :: segs := by
  conv_lhs => rw [splitOnDot.eq_def]
  simp [hc]

/-- `split('.')` always yields at least one segment. -/
lemma splitOnDot_ne_nil (l : List Char) : splitOnDot l ≠ [] := by
  cases l with
  | nil => simp [splitOnDot]
  | cons c rest =>
    by_cases hc : c = '.'
    · subst hc
      rw [splitOnDot_dot]
      simp
    · rw [splitOnDot_cons_ne hc]
      cases splitOnDot rest <;> simp

/-- A list with no dot is a single segment. -/
lemma splitOnDot_of_not_mem {l : List Char} (h : ('.' : Char) ∉ l) :
    splitOnDot l = [l] := by
  induction l with
  | nil => rfl
  | cons c rest ih =>
    have hc : c ≠ '.' := fun hc => h (hc ▸ List.mem_cons_self c rest)
    have hrest : ('.' : Char) ∉ rest := fun hm => h (List.mem_cons_of_mem c hm)
    rw [splitOnDot_cons_ne hc, ih hrest]

/-- A list containing a dot splits into at least two segments. -/
lemma two_le_splitOnDot_length {l : List Char} (h : ('.' : Char) ∈ l) :
    2 ≤ (splitOnDot l).length := by
  induction l with
  | nil => cases h
  | cons c rest ih =>
    by_cases hc : c = '.'
    · subst hc
      rw [splitOnDot_dot]
      have h1 : 1 ≤ (splitOnDot rest).length :=
        List.length_pos.mpr (splitOnDot_ne_nil rest)
      simp only [List.length_cons]
      omega
    · have hrest : ('.' : Char) ∈ rest := by
        rcases List.mem_cons.mp h with h | h
        · exact absurd h.symm hc
        · exact h
      rw [splitOnDot_cons_ne hc]
      rcases he : splitOnDot rest with _ | ⟨seg, segs⟩
      · exact absurd he (splitOnDot_ne_nil rest)
      · have := ih hrest
        rw [he] at this
        simpa using this

/-- The default value of `getLastD` is irrelevant on a nonempty list. -/
lemma getLastD_default_irrel {α : Type} {l : List α} (h : l ≠ []) (d e : α) :
    l.getLastD d = l.getLastD e := by
  cases l with
  | nil => exact absurd rfl h
  | cons a t => rw [List.getLastD_cons, List.getLastD_cons]

/-- The last segment of a list ending in `'.' :: ys` is the last segment
of `ys`: everything before the final dot is irrelevant. -/
lemma splitOnDot_getLastD_append (xs ys : List Char) :
    (splitOnDot (xs ++ '.' :: ys)).getLastD [] = (splitOnDot ys).getLastD [] := by
  induction xs with
  | nil =>
    rw [List.nil_append, splitOnDot_dot, List.getLastD_cons]
  | cons c xs ih =>
    by_cases hc : c = '.'
    · subst hc
      rw [List.cons_append, splitOnDot_dot, List.getLastD_cons]
      exact ih
    · rw [List.cons_append, splitOnDot_cons_ne hc]
      rcases he : splitOnDot (xs ++ '.' :: ys) with _ | ⟨seg, segs⟩
      · exact absurd he (splitOnDot_ne_nil _)
      · have hlen : 2 ≤ (splitOnDot (xs ++ '.' :: ys)).length :=
          two_le_splitOnDot_length (by simp)
        rw [he] at hlen
        have hsegs : segs ≠ [] := by
          intro hnil
          rw [hnil] at hlen
          simp at hlen
        rw [← ih, he, List.getLastD_cons, List.getLastD_cons]
        exact getLastD_default_irrel hsegs _ _

/-! ## Claims -/

/-- C1 (counterexample): from the state where the terminal panel is shown,
toggling the terminal panel twice yields the terminal panel again, not
`none` — the claim fails on that state. -/
theorem togglePanel_terminal_twice_counterexample :
    (togglePanel Panel.terminal (togglePanel Panel.terminal
      { initState with rightPanel := Panel.terminal })).rightPanel = Panel.terminal ∧
    Panel.terminal ≠ Panel.none := by
  exact ⟨rfl, by decide⟩

/-- C1 (amended): from every panel state in which the terminal panel is
not currently shown (`preview` or `none`), applying the terminal-panel
toggle twice yields no panel shown. -/
theorem togglePanel_terminal_twice (s : AppState)
    (h : s.rightPanel ≠ Panel.terminal) :
    (togglePanel Panel.terminal (togglePanel Panel.terminal s)).rightPanel =
      Panel.none := by
  cases hr : s.rightPanel <;>
    simp_all [togglePanel, nextPanel]

/-- C1 witness: the amended theorem applied to the initial state. -/
theorem togglePanel_terminal_twice_witness :
    initState.rightPanel ≠ Panel.terminal ∧
    (togglePanel Panel.terminal (togglePanel Panel.terminal initState)).rightPanel =
      Panel.none :=
  ⟨by decide, togglePanel_terminal_twice initState (by decide)⟩

/-- C3: at startup the file list holds exactly the three default files
`index.html`/`html`, `styles.css`/`css`, `script.js`/`javascript`, each
with empty content, and the first of them is the active file. -/
theorem initState_default_files :
    initState.files =
      [ { id := "1", name := "index.html", language := "html", content := "" }
      , { id := "2", name := "styles.css", language := "css", content := "" }
      , { id := "3", name := "script.js", language := "javascript", content := "" } ] ∧
    initState.files.length = 3 ∧
    initState.files.head?.map File.id = Option.some initState.activeFileId := by
  exact ⟨rfl, rfl, rfl⟩

/-- C5: the panel state is always one of `preview`, `terminal`, `none`;
toggling the currently shown panel yields `none`, and toggling a panel
that is not currently shown yields that panel. -/
theorem togglePanel_cases (p : Panel) (s : AppState) :
    (s.rightPanel = Panel.preview ∨ s.rightPanel = Panel.terminal ∨
      s.rightPanel = Panel.none) ∧
    (s.rightPanel = p → (togglePanel p s).rightPanel = Panel.none) ∧
    (s.rightPanel ≠ p → (togglePanel p s).rightPanel = p) := by
  refine ⟨?_, ?_, ?_⟩
  · cases s.rightPanel
    · exact Or.inl rfl
    · exact Or.inr (Or.inl rfl)
    · exact Or.inr (Or.inr rfl)
  · intro h
    simp [togglePanel, nextPanel, h]
  · intro h
    simp [togglePanel, nextPanel, h]

/-- C5 witness: the theorem applied at the terminal toggle on the initial
state (terminal not shown, so it becomes shown). -/
theorem togglePanel_cases_witness :
    initState.rightPanel ≠ Panel.terminal ∧
    (togglePanel Panel.terminal initState).rightPanel = Panel.terminal :=
  ⟨by decide,
   (togglePanel_cases Panel.terminal initState).2.2 (by decide)⟩

/-- C6: the media-device failure handler leaves the whole state — in
particular the video flag, the file list and the panel state — unchanged,
and only emits a log line. -/
theorem onMediaError_no_state_change (err : String) (s : AppState) :
    (onMediaError err s).fst = s ∧
    (onMediaError err s).fst.videoEnabled = s.videoEnabled ∧
    (onMediaError err s).fst.files = s.files ∧
    (onMediaError err s).fst.rightPanel = s.rightPanel ∧
    (onMediaError err s).snd = ["Error accessing media devices: " ++ err] :=
  ⟨rfl, rfl, rfl, rfl, rfl⟩

/-- C9: a cancelled prompt (`null`) or an empty file name leaves the
state completely unchanged: no file is added and the active id keeps its
value. -/
theorem addNewFile_cancelled_or_empty (newId : String) (s : AppState) :
    addNewFile Option.none newId s = s ∧
    addNewFile (Option.some "") newId s = s := by
  constructor
  · rfl
  · simp [addNewFile]

/-- C2 (counterexample): the file name `md` contains no dot, yet the file
created for it receives language `markdown`, not `plaintext` as the claim
states: `split('.').pop()` on a dotless name returns the whole name. -/
theorem addNewFile_no_dot_counterexample :
    ("md".data.contains '.') = false ∧
    ((addNewFile (Option.some "md") "99" initState).files.getLast?.map File.language) =
      Option.some "markdown" ∧
    ("markdown" : String) ≠ "plaintext" := by
  exact ⟨rfl, by decide, by decide⟩

/-- C2 (amended): a created file's language tag is `languageOf` applied to
the lowercased last dot-separated segment of its name.  For a name
containing a dot that segment is the text after the last dot; for a name
with no dot the whole lowercased name is used as the extension (so a file
named `md` receives `markdown`, not `plaintext`). -/
theorem addNewFile_language (s : AppState) (newId fileName : String)
    (h : fileName ≠ "") :
    (addNewFile (Option.some fileName) newId s).files =
      s.files ++ [{ id := newId, name := fileName,
                    language := languageOf (extensionOf fileName), content := "" }] ∧
    (addNewFile (Option.some fileName) newId s).activeFileId = newId ∧
    (∀ xs ys : List Char, ('.' : Char) ∉ ys → fileName.data = xs ++ '.' :: ys →
      extensionOf fileName = String.mk (ys.map Char.toLower)) ∧
    (('.' : Char) ∉ fileName.data →
      extensionOf fileName = String.mk (fileName.data.map Char.toLower)) := by
  refine ⟨by simp [addNewFile, h], by simp [addNewFile, h], ?_, ?_⟩
  · intro xs ys hys hdata
    unfold extensionOf
    rw [hdata, splitOnDot_getLastD_append, splitOnDot_of_not_mem hys,
      List.getLastD_cons]
    rfl
  · intro hnd
    unfold extensionOf
    rw [splitOnDot_of_not_mem hnd, List.getLastD_cons]
    rfl

/-- C2 witness: the amended theorem applied to a concrete creation. -/
theorem addNewFile_language_witness :
    ("notes.TS" : String) ≠ "" ∧
    (addNewFile (Option.some "notes.TS") "42" initState).files =
      initState.files ++ [{ id := "42", name := "notes.TS",
                            language := languageOf (extensionOf "notes.TS"), content := "" }] :=
  ⟨by decide, (addNewFile_language initState "42" "notes.TS" (by decide)).1⟩

/-- C7: saving downloads exactly the active file — the state is unchanged,
and if some file carries the active id the emitted download holds that
file's content under that file's name, while if no file carries the
active id nothing is downloaded. -/
theorem saveFile_downloads_active (s : AppState) :
    (saveFile s).fst = s ∧
    ((∃ f ∈ s.files, f.id = s.activeFileId) →
      ∃ f ∈ s.files, f.id = s.activeFileId ∧
        (saveFile s).snd =
          Option.some { content := f.content, fileName := f.name, mime := "text/plain" }) ∧
    ((∀ f ∈ s.files, f.id ≠ s.activeFileId) → (saveFile s).snd = Option.none) := by
  refine ⟨saveFile_fst s, ?_, ?_⟩
  · intro hex
    rcases hfind : s.files.find? (fun f => f.id = s.activeFileId) with _ | f
    · rw [List.find?_eq_none] at hfind
      rcases hex with ⟨f, hf, hid⟩
      exact absurd (by simpa using hid) (by simpa using hfind f hf)
    · refine ⟨f, List.mem_of_find?_eq_some hfind, ?_, ?_⟩
      · simpa using List.find?_some hfind
      · unfold saveFile
        rw [hfind]
  · intro hall
    have hnone : s.files.find? (fun f => f.id = s.activeFileId) = Option.none := by
      rw [List.find?_eq_none]
      intro f hf
      simpa using hall f hf
    unfold saveFile
    rw [hnone]

/-- C7 witness: saving in the initial state downloads `index.html` with
empty content. -/
theorem saveFile_downloads_active_witness :
    ∃ f ∈ initState.files, f.id = initState.activeFileId ∧
      (saveFile initState).snd =
        Option.some { content := f.content, fileName := f.name, mime := "text/plain" } :=
  (saveFile_downloads_active initState).2.1
    ⟨{ id := "1", name := "index.html", language := "html", content := "" },
      by decide, by decide⟩

/-- C4: no action removes a file — the file list's length never shrinks,
and every file present before an action is still present (same id, name
and language) after it. -/
theorem step_never_removes_files (a : Action) (s : AppState) :
    s.files.length ≤ (step a s).files.length ∧
    ∀ f ∈ s.files, ∃ g ∈ (step a s).files,
      g.id = f.id ∧ g.name = f.name ∧ g.language = f.language := by
  cases a with
  | createFile r newId =>
    cases r with
    | none => exact ⟨Nat.le_refl _, fun f hf => ⟨f, hf, rfl, rfl, rfl⟩⟩
    | some fileName =>
      by_cases h : fileName = ""
      · subst h
        have hs : step (Action.createFile (Option.some "") newId) s = s := by
          simp [step, addNewFile]
        rw [hs]
        exact ⟨Nat.le_refl _, fun f hf => ⟨f, hf, rfl, rfl, rfl⟩⟩
      · have hs : (step (Action.createFile (Option.some fileName) newId) s).files =
            s.files ++ [{ id := newId, name := fileName,
                          language := languageOf (extensionOf fileName), content := "" }] := by
          simp [step, addNewFile, h]
        rw [hs]
        constructor
        · simp
        · intro f hf
          exact ⟨f, List.mem_append_left _ hf, rfl, rfl, rfl⟩
  | save =>
    rw [show step Action.save s = (saveFile s).fst from rfl, saveFile_fst]
    exact ⟨Nat.le_refl _, fun f hf => ⟨f, hf, rfl, rfl, rfl⟩⟩
  | editorChange c =>
    constructor
    · show s.files.length ≤ (s.files.map _).length
      rw [List.length_map]
    · intro f hf
      refine ⟨(fun g =>
          if g.id = initState.activeFileId then { g with content := c } else g) f,
        List.mem_map_of_mem _ hf, ?_, ?_, ?_⟩ <;>
        by_cases hid : f.id = initState.activeFileId <;> simp [hid]
  | panelToggle p => exact ⟨Nat.le_refl _, fun f hf => ⟨f, hf, rfl, rfl, rfl⟩⟩
  | videoToggle => exact ⟨Nat.le_refl _, fun f hf => ⟨f, hf, rfl, rfl, rfl⟩⟩
  | fileSelect i =>
    have hs : (step (Action.fileSelect i) s).files = s.files := by
      show (selectFile i s).files = s.files
      unfold selectFile
      cases s.files.get? i <;> rfl
    rw [hs]
    exact ⟨Nat.le_refl _, fun f hf => ⟨f, hf, rfl, rfl, rfl⟩⟩
  | mediaError e => exact ⟨Nat.le_refl _, fun f hf => ⟨f, hf, rfl, rfl, rfl⟩⟩

/-- C4 witness: the first default file survives an editor content change. -/
theorem step_never_removes_files_witness :
    ∃ g ∈ (step (Action.editorChange "x") initState).files,
      g.id = ({ id := "1", name := "index.html", language := "html", content := "" } : File).id ∧
      g.name = ({ id := "1", name := "index.html", language := "html", content := "" } : File).name ∧
      g.language = ({ id := "1", name := "index.html", language := "html", content := "" } : File).language :=
  (step_never_removes_files (Action.editorChange "x") initState).2
    { id := "1", name := "index.html", language := "html", content := "" } (by decide)

/-- Every single action preserves the invariant that some file in the list
carries the active file id. -/
lemma activeValid_step (a : Action) (s : AppState)
    (h : ∃ f ∈ s.files, f.id = s.activeFileId) :
    ∃ f ∈ (step a s).files, f.id = (step a s).activeFileId := by
  cases a with
  | createFile r newId =>
    cases r with
    | none => exact h
    | some fileName =>
      by_cases hn : fileName = ""
      · subst hn
        have hs : step (Action.createFile (Option.some "") newId) s = s := by
          simp [step, addNewFile]
        rw [hs]
        exact h
      · refine ⟨{ id := newId, name := fileName,
                  language := languageOf (extensionOf fileName), content := "" }, ?_, ?_⟩
        · simp [step, addNewFile, hn]
        · simp [step, addNewFile, hn]
  | save =>
    rw [show step Action.save s = (saveFile s).fst from rfl, saveFile_fst]
    exact h
  | editorChange c =>
    rcases h with ⟨f, hf, hid⟩
    refine ⟨(fun g =>
        if g.id = initState.activeFileId then { g with content := c } else g) f,
      List.mem_map_of_mem _ hf, ?_⟩
    show (if f.id = initState.activeFileId then { f with content := c } else f).id =
      s.activeFileId
    by_cases hc : f.id = initState.activeFileId
    · rw [if_pos hc]
      exact hid
    · rw [if_neg hc]
      exact hid
  | panelToggle p => exact h
  | videoToggle => exact h
  | fileSelect i =>
    rcases hg : s.files.get? i with _ | f
    · have hs : step (Action.fileSelect i) s = s := by
        show selectFile i s = s
        unfold selectFile
        rw [hg]
      rw [hs]
      exact h
    · have hs : step (Action.fileSelect i) s = { s with activeFileId := f.id } := by
        show selectFile i s = _
        unfold selectFile
        rw [hg]
      rw [hs]
      exact ⟨f, List.get?_mem hg, rfl⟩
  | mediaError e => exact h

/-- C8: in every reachable state the active file id refers to a file that
is present in the file list, so the `files.find` lookup for the active
file never fails. -/
theorem run_active_file_exists (acts : List Action) :
    ∃ f ∈ (run acts).files, f.id = (run acts).activeFileId := by
  suffices hgen : ∀ s : AppState, (∃ f ∈ s.files, f.id = s.activeFileId) →
      ∃ f ∈ (acts.foldl (fun t a => step a t) s).files,
        f.id = (acts.foldl (fun t a => step a t) s).activeFileId by
    exact hgen initState
      ⟨{ id := "1", name := "index.html", language := "html", content := "" },
        by decide, rfl⟩
  induction acts with
  | nil => exact fun s h => h
  | cons a rest ih =>
    intro s h
    exact ih (step a s) (activeValid_step a s h)

/-- C10: evaluation at the failing input.  After selecting file `"2"`
(`styles.css`), an editor content change still writes through the
mount-time captured id `"1"`: file `"1"` (`index.html`) receives the typed
content while the currently active file `"2"` keeps its old (empty)
content and the active id is still `"2"` — the handler mutates a file
other than the active one, contrary to the comparison its own code spells
out against `activeFileId`. -/
theorem onEditorContentChange_stale_closure :
    (selectFile 1 initState).activeFileId = "2" ∧
    (onEditorContentChange initState.activeFileId "x"
        (selectFile 1 initState)).files.map File.content = ["x", "", ""] ∧
    ((onEditorContentChange initState.activeFileId "x"
        (selectFile 1 initState)).files.find? (fun f => f.id = "2")).map File.content =
      Option.some "" := by
  exact ⟨by decide, by decide, by decide⟩

end CollabSystem
